import Mathlib

/-!
Shallow embedding of the elasticity-analysis pipeline of the rgm-analytics
repository (`analisis_elasticidad.py`, `analisis_elasticidad_final.py`,
`test_elasticidad.py`, `test_elasticidad_mejorado.py`).

Machine floats of the Python sources are modelled as exact rationals (every
float is a rational); `NaN` produced by `pd.to_numeric(errors='coerce')` is
modelled by `Option.none`; pipeline steps that bail out per product return
`Option.none` instead of raising.
-/

namespace RGM

/-! ## Elasticity categorisation

`categorize_elasticity` of `analisis_elasticidad.py` (`calcular_elasticidades`,
lines 263-271); `categorize_elasticity_final` is the variant inside
`ElasticityAnalyzer.run_analysis` of `analisis_elasticidad_final.py`
(lines 289-297), which uses shifted label names over the same thresholds. -/

def categorize_elasticity (e : ℚ) : String :=
  if e > -(1/2) then "Inelástico"
  else if e > -1 then "Poco Elástico"
  else if e > -2 then "Elástico"
  else "Muy Elástico"

def categorize_elasticity_final (e : ℚ) : String :=
  if e > -(1/2) then "Muy Inelástico"
  else if e > -1 then "Inelástico"
  else if e > -2 then "Elástico"
  else "Muy Elástico"

/-! ## Product variability profiles and tiered candidate selection

`ElasticityAnalyzer.run_analysis` of `analisis_elasticidad_final.py`
(lines 187-225): per-product summary rows and the three progressively
applied threshold filters ("Filtros progresivos"). -/

structure ProductProfile where
  transactions : ℕ
  price_cv : ℚ
  price_unique : ℕ
  price_range_pct : ℚ
deriving DecidableEq, Repr

/-- First filter (lines 203-208): `transactions >= self.min_transactions`,
`price_cv >= 0.15`, `price_unique >= 4`, `price_range_pct >= 0.3`. -/
def tier1Pass (minTransactions : ℕ) (p : ProductProfile) : Bool :=
  minTransactions ≤ p.transactions ∧ (15/100 : ℚ) ≤ p.price_cv ∧
    4 ≤ p.price_unique ∧ (3/10 : ℚ) ≤ p.price_range_pct

/-- Second filter (lines 210-217), applied when fewer than 5 candidates pass:
`transactions >= 15`, `price_cv >= 0.1`, `price_unique >= 3`,
`price_range_pct >= 0.2`. -/
def tier2Pass (p : ProductProfile) : Bool :=
  15 ≤ p.transactions ∧ (1/10 : ℚ) ≤ p.price_cv ∧
    3 ≤ p.price_unique ∧ (1/5 : ℚ) ≤ p.price_range_pct

/-- Third filter (lines 219-225), applied when fewer than 3 candidates remain:
`transactions >= 10`, `price_cv >= 0.05`, `price_unique >= 2`, no range bound. -/
def tier3Pass (p : ProductProfile) : Bool :=
  10 ≤ p.transactions ∧ (1/20 : ℚ) ≤ p.price_cv ∧ 2 ≤ p.price_unique

/-- The cascade of `run_analysis` lines 203-225: start from the configured
tuple, relax once when fewer than 5 products pass, relax again when fewer
than 3 pass the second tuple. -/
def select_candidates (minTransactions : ℕ) (ps : List ProductProfile) :
    List ProductProfile :=
  let c1 := ps.filter (tier1Pass minTransactions)
  if c1.length < 5 then
    let c2 := ps.filter tier2Pass
    if c2.length < 3 then ps.filter tier3Pass else c2
  else c1

/-! ## Dynamic quantile segmentation

`ElasticityAnalyzer.create_price_segments` of `analisis_elasticidad_final.py`,
`method='dynamic'` branch (lines 35-46): the number of quantile bins passed to
`pd.qcut` is chosen from the count of distinct prices (`prices.nunique()`);
with fewer than 3 distinct prices the method returns `None`. -/

def nuniqueQ (prices : List ℚ) : ℕ := prices.dedup.length

def create_price_segments_dynamic (prices : List ℚ) : Option ℕ :=
  let unique_prices := nuniqueQ prices
  if 8 ≤ unique_prices then some 5
  else if 5 ≤ unique_prices then some 4
  else if 3 ≤ unique_prices then some 3
  else none

/-! ## Result rows and result filtering

Rows of the per-product result tables.  `ResultRow` mirrors the dicts built by
`analyze_product_elasticity` (`test_elasticidad_mejorado.py`) and
`ElasticityAnalyzer.analyze_product`; `ElasticityRow` mirrors the dicts built
by `calculate_elasticity_for_product` (`analisis_elasticidad.py`). -/

structure ResultRow where
  elasticity : ℚ
  r2 : ℚ
  segments : ℕ
deriving DecidableEq, Repr

structure ElasticityRow where
  elasticidad : ℚ
  r2 : ℚ
  observaciones : ℕ
deriving DecidableEq, Repr

/-- Module-level filter of `test_elasticidad_mejorado.py` lines 242-247:
`r2 >= 0.4`, `elasticity < 0`, `elasticity > -5`, `segments >= 3`. -/
def mejorado_valid_filter (rows : List ResultRow) : List ResultRow :=
  rows.filter fun r =>
    (2/5 : ℚ) ≤ r.r2 ∧ r.elasticity < 0 ∧ -5 < r.elasticity ∧ 3 ≤ r.segments

/-- Filter of `calcular_elasticidades` in `analisis_elasticidad.py`
lines 246-251: `R2 > 0.3`, `Elasticidad < 0`, `Elasticidad > -5`,
`Observaciones >= 3`. -/
def analisis_valid_filter (rows : List ElasticityRow) : List ElasticityRow :=
  rows.filter fun r =>
    (3/10 : ℚ) < r.r2 ∧ r.elasticidad < 0 ∧ -5 < r.elasticidad ∧
      3 ≤ r.observaciones

/-- Plausibility window of `run_analysis` lines 262-266:
`-20 < elasticity < 20` and `r2 >= 0.05`. -/
def plausibleRow (r : ResultRow) : Bool :=
  -20 < r.elasticity ∧ r.elasticity < 20 ∧ (1/20 : ℚ) ≤ r.r2

/-- Rows with negative elasticity, `run_analysis` line 276. -/
def negativeRows (rows : List ResultRow) : List ResultRow :=
  rows.filter fun r => r.elasticity < 0

/-- Result selection of `run_analysis` lines 262-287: apply the plausibility
window; when nothing passes fall back to all computed rows; otherwise keep
only the negative-elasticity rows whenever at least one exists. -/
def run_analysis_select (rows : List ResultRow) : List ResultRow :=
  let valid := rows.filter plausibleRow
  if valid.isEmpty then rows
  else if (negativeRows valid).isEmpty then valid
  else negativeRows valid

/-- `run_analysis` lines 289-302: the selected rows with the category column
attached via `categorize_elasticity` (final variant). -/
def run_analysis_output (rows : List ResultRow) : List (ResultRow × String) :=
  (run_analysis_select rows).map fun r =>
    (r, categorize_elasticity_final r.elasticity)

/-! ## Transactions, bucket aggregation and the advanced estimator

`calculate_elasticity_advanced` of `test_elasticidad_mejorado.py`
(lines 24-109): transactions of one product are grouped into price buckets
(`groupby('Precio_Bin')`), aggregated, thin buckets dropped, and the product
is rejected (`None`) on degenerate inputs.  The bucket assignment itself
(`pd.cut` edges) is supplied by the caller, so the aggregation is embedded
over an arbitrary list of buckets. -/

structure Txn where
  precio : ℚ
  qty_entregada : ℚ
  importe : ℚ
deriving DecidableEq, Repr

def meanQ (l : List ℚ) : ℚ := l.sum / l.length

/-- One aggregated bucket (lines 68-75): mean price, transaction count,
summed quantity, summed revenue. -/
structure BucketAgg where
  precio_medio : ℚ
  transacciones : ℕ
  cantidad_total : ℚ
  importe_total : ℚ
deriving DecidableEq, Repr

def aggBucket (b : List Txn) : BucketAgg :=
  { precio_medio := meanQ (b.map Txn.precio)
    transacciones := b.length
    cantidad_total := (b.map Txn.qty_entregada).sum
    importe_total := (b.map Txn.importe).sum }

/-- Sum of squared deviations from the mean; the pandas sample standard
deviation of a series with at least two entries is zero exactly when this
quantity is zero. -/
def sumSqDev (l : List ℚ) : ℚ := (l.map fun x => (x - meanQ l) ^ 2).sum

/-- Lines 67-109 of `test_elasticidad_mejorado.py`: aggregate each bucket,
drop buckets with fewer than 2 transactions (line 79), return `None` when
fewer than 3 buckets remain or the bucket-level mean-price series has zero
variance (line 81), or when a log-transform input is nonpositive (the
`isna` check on the log series, lines 86-91); otherwise hand the aggregated
series to the log-log regression.  The value carried by `some` is that
series. -/
def calculate_elasticity_advanced (buckets : List (List Txn)) :
    Option (List BucketAgg) :=
  let agg := (buckets.map aggBucket).filter fun a => 2 ≤ a.transacciones
  if agg.length < 3 then none
  else if sumSqDev (agg.map BucketAgg.precio_medio) = 0 then none
  else if agg.any (fun a => a.precio_medio ≤ 0) ||
      agg.any (fun a => a.cantidad_total ≤ 0) then none
  else some agg

/-- The per-product loop of `test_elasticidad_mejorado.py` lines 229-233:
products whose analysis returns `None` are skipped, all others contribute
one result, in order. -/
def analyze_batch (products : List (List (List Txn))) : List (List BucketAgg) :=
  products.filterMap calculate_elasticity_advanced

/-! ## Best-of-methods selection

`ElasticityAnalyzer.calculate_elasticity_robust` of
`analisis_elasticidad_final.py` (lines 64-123): each segmentation method
yields either `None` or a fitted result; the loop keeps the result whose
`r2` strictly exceeds the best seen so far, starting from `best_r2 = -1`.
The embedding takes the list of per-method outcomes (in method order) as
input. -/

structure MethodResult where
  elasticity : ℚ
  r2 : ℚ
  method : String
  segments : ℕ
deriving DecidableEq, Repr

/-- One iteration of the method loop: a failed method leaves the best pair
unchanged, a successful one replaces it when its `r2` strictly exceeds the
best `r2` so far. -/
def robustStep (best : Option MethodResult × ℚ) (att : Option MethodResult) :
    Option MethodResult × ℚ :=
  match att with
  | none => best
  | some r => if best.2 < r.r2 then (some r, r.r2) else best

def calculate_elasticity_robust (attempts : List (Option MethodResult)) :
    Option MethodResult :=
  (attempts.foldl robustStep ((none : Option MethodResult), (-1 : ℚ))).1

/-! ## Record validation

The valid-record filter of `analisis_elasticidad.py` lines 47-54,
`analisis_elasticidad_final.py` lines 175-181 and `test_elasticidad.py`
lines 39-46: keep rows whose price, quantity and revenue are present and
strictly positive.  A missing (`NaN`) field is `none`; any comparison
against `NaN` is false in pandas, so `posOpt none = false`. -/

structure RawRecord where
  sku : String
  precio : Option ℚ
  qty_entregada : Option ℚ
  importe : Option ℚ
deriving DecidableEq, Repr

def posOpt : Option ℚ → Bool
  | some x => decide (0 < x)
  | none => false

def validRecord (r : RawRecord) : Bool :=
  posOpt r.precio && posOpt r.qty_entregada && posOpt r.importe &&
    r.precio.isSome && r.qty_entregada.isSome && r.importe.isSome

def filter_valid_records (rs : List RawRecord) : List RawRecord :=
  rs.filter validRecord

/-! ## Price variability metrics

`analisis_elasticidad.py` lines 60-67: per-product price statistics, with
`CV = std / mean` (pandas sample standard deviation) and
`Rango_Pct = (max - min) / mean * 100`. -/

def sampleVar (l : List ℚ) : ℚ := sumSqDev l / ((l.length : ℚ) - 1)

noncomputable def stdQ (l : List ℚ) : ℝ := Real.sqrt ((sampleVar l : ℚ) : ℝ)

noncomputable def price_cv (l : List ℚ) : ℝ := stdQ l / ((meanQ l : ℚ) : ℝ)

def minQ : List ℚ → ℚ
  | [] => 0
  | x :: xs => xs.foldl min x

def maxQ : List ℚ → ℚ
  | [] => 0
  | x :: xs => xs.foldl max x

def rango_pct (l : List ℚ) : ℚ := (maxQ l - minQ l) / meanQ l * 100

/-! ## Numeric normalisation

`clean_numeric_columns` of `analisis_elasticidad.py` lines 16-29 (the same
code appears in the other scripts): every raw cell is converted to text
(`astype(str)`), commas are replaced by decimal points
(`str.replace(',', '.')`), and the text is parsed with
`pd.to_numeric(errors='coerce')`, which yields `NaN` for unparseable text
and never raises.  A raw cell is text, a number, or `NaN` (whose `str`
rendering is "nan").  Numbers entering or leaving the normaliser are
machine floats, i.e. rationals with a terminating decimal expansion; their
text rendering is modelled by `renderQChars`, which produces an exact
(possibly zero-padded) decimal expansion, and the decimal parser of
`pd.to_numeric` is modelled by `parseNumChars` (sign, integer part,
optional fractional part). -/

inductive RawValue where
  | str (s : String)
  | num (q : ℚ)
  | missing
deriving DecidableEq, Repr

def digitChar : ℕ → Char
  | 0 => '0'
  | 1 => '1'
  | 2 => '2'
  | 3 => '3'
  | 4 => '4'
  | 5 => '5'
  | 6 => '6'
  | 7 => '7'
  | 8 => '8'
  | 9 => '9'
  | _ => '*'

def charToDigit (c : Char) : Option ℕ :=
  if 48 ≤ c.toNat ∧ c.toNat ≤ 57 then some (c.toNat - 48) else none

def parseDigitsAux : List Char → ℕ → Option ℕ
  | [], acc => some acc
  | c :: cs, acc =>
    match charToDigit c with
    | some d => parseDigitsAux cs (10 * acc + d)
    | none => none

/-- Parse a nonempty all-digit string as a natural number. -/
def parseDigits : List Char → Option ℕ
  | [] => none
  | c :: cs => parseDigitsAux (c :: cs) 0

/-- Split at the first decimal point, if any. -/
def splitDot : List Char → List Char × Option (List Char)
  | [] => ([], none)
  | c :: cs =>
    if c = '.' then ([], some cs)
    else
      let r := splitDot cs
      (c :: r.1, r.2)

def parseUnsignedChars (cs : List Char) : Option ℚ :=
  match splitDot cs with
  | (ip, none) =>
    match parseDigits ip with
    | some n => some ((n : ℕ) : ℚ)
    | none => none
  | (ip, some fp) =>
    if fp = [] then
      match parseDigits ip with
      | some n => some ((n : ℕ) : ℚ)
      | none => none
    else if ip = [] then
      match parseDigits fp with
      | some b => some (((b : ℕ) : ℚ) / 10 ^ fp.length)
      | none => none
    else
      match parseDigits ip, parseDigits fp with
      | some a, some b => some (((a : ℕ) : ℚ) + ((b : ℕ) : ℚ) / 10 ^ fp.length)
      | _, _ => none

def parseNumChars : List Char → Option ℚ
  | [] => none
  | c :: cs =>
    if c = '-' then
      match parseUnsignedChars cs with
      | some q => some (-q)
      | none => none
    else if c = '+' then parseUnsignedChars cs
    else parseUnsignedChars (c :: cs)

/-- Decimal rendering of a natural number, most significant digit first. -/
def natChars (n : ℕ) : List Char :=
  if n = 0 then ['0'] else (Nat.digits 10 n).reverse.map digitChar

/-- Exactly `k` fractional digits of `m < 10 ^ k`, left-padded with zeros. -/
def fracChars (m k : ℕ) : List Char :=
  List.replicate (k - (Nat.digits 10 m).length) '0' ++
    (Nat.digits 10 m).reverse.map digitChar

/-- Text of a nonnegative terminating-decimal rational: integers render
without a decimal point; otherwise `q` is scaled by `10 ^ q.den` (for a
terminating decimal the denominator always divides this power of ten) and
rendered as integer part, point, `q.den` fractional digits. -/
def renderPosChars (q : ℚ) : List Char :=
  if q.den = 1 then natChars q.num.toNat
  else
    natChars ((q * (10 : ℚ) ^ q.den).num.toNat / 10 ^ q.den) ++
      '.' :: fracChars ((q * (10 : ℚ) ^ q.den).num.toNat % 10 ^ q.den) q.den

def renderQChars (q : ℚ) : List Char :=
  if q < 0 then '-' :: renderPosChars (-q) else renderPosChars q

/-- `astype(str)`. -/
def astypeStr : RawValue → List Char
  | .str s => s.data
  | .num q => renderQChars q
  | .missing => ['n', 'a', 'n']

/-- `str.replace(',', '.', regex=False)` for the single-character pattern. -/
def replaceComma (cs : List Char) : List Char :=
  cs.map fun c => if c = ',' then '.' else c

/-- One cell of `clean_numeric_columns`: stringify, replace commas, coerce. -/
def normalize_value (v : RawValue) : Option ℚ :=
  parseNumChars (replaceComma (astypeStr v))

end RGM

namespace RGM

/-! ## Theorems -/

/-- C1: the classifier splits the elasticity line at −0.5, −1 and −2, with
each boundary value falling in the more negative bucket: `e = −0.5` is
classified one step more elastic than "Inelástico" (= "Inelastic"),
`e = −1` as "Elástico" (= "Elastic"), `e = −2` as "Muy Elástico"
(= "Highly Elastic"); the `run_analysis` variant uses the same buckets
under shifted label names. -/
theorem C1_classifier_thresholds : ∀ e : ℚ,
    ((-(1/2) < e) ↔ categorize_elasticity e = "Inelástico") ∧
    ((-1 < e ∧ e ≤ -(1/2)) ↔ categorize_elasticity e = "Poco Elástico") ∧
    ((-2 < e ∧ e ≤ -1) ↔ categorize_elasticity e = "Elástico") ∧
    ((e ≤ -2) ↔ categorize_elasticity e = "Muy Elástico") ∧
    categorize_elasticity (-(1/2)) = "Poco Elástico" ∧
    categorize_elasticity (-1) = "Elástico" ∧
    categorize_elasticity (-2) = "Muy Elástico" ∧
    (categorize_elasticity e = "Inelástico" ↔
      categorize_elasticity_final e = "Muy Inelástico") ∧
    (categorize_elasticity e = "Poco Elástico" ↔
      categorize_elasticity_final e = "Inelástico") ∧
    (categorize_elasticity e = "Elástico" ↔
      categorize_elasticity_final e = "Elástico") ∧
    (categorize_elasticity e = "Muy Elástico" ↔
      categorize_elasticity_final e = "Muy Elástico") := by
  intro e
  refine ⟨?_, ?_, ?_, ?_, by norm_num [categorize_elasticity],
    by norm_num [categorize_elasticity], by norm_num [categorize_elasticity],
    ?_, ?_, ?_, ?_⟩ <;>
  · simp only [categorize_elasticity, categorize_elasticity_final]
    split_ifs with h1 h2 h3 <;> constructor <;> intro h <;>
      try obtain ⟨ha, hb⟩ := h
    all_goals first
      | rfl
      | (exfalso; linarith)
      | (exact absurd h (by decide))
      | (constructor <;> linarith)
      | linarith

/-- C3 counterexample: under the shipped configuration
`min_transactions = 10` (`analisis_elasticidad_final.py` line 367), the
profile with 12 transactions, CV 0.2, 4 distinct prices and range 40%
passes the first threshold tuple but fails the second, so the second tuple
is not componentwise at most as strict as the first. -/
theorem C3_counterexample :
    tier1Pass 10 ⟨12, 1/5, 4, 2/5⟩ = true ∧
    tier2Pass ⟨12, 1/5, 4, 2/5⟩ = false ∧
    ¬ (∀ p : ProductProfile, tier1Pass 10 p = true → tier2Pass p = true) := by
  refine ⟨?_, ?_, ?_⟩
  · simp only [tier1Pass, decide_eq_true_eq]
    norm_num
  · simp only [tier2Pass, decide_eq_false_iff_not]
    norm_num
  · intro hall
    have h1 : tier1Pass 10 ⟨12, 1/5, 4, 2/5⟩ = true := by
      simp only [tier1Pass, decide_eq_true_eq]; norm_num
    have h2 := hall _ h1
    simp only [tier2Pass, decide_eq_true_eq] at h2
    omega

/-- C3 (amended): candidate selection applies the configured tuple, retries
with the fixed tuple {15, 0.10, 3, 0.20} when fewer than 5 products pass,
and with {10, 0.05, 2, no range bound} when fewer than 3 pass the second;
at most three tiers are tried.  The third tuple is at most as strict as the
second in every component; the second is at most as strict as the first in
every component only when the configured `min_transactions` is at least 15. -/
theorem C3_tiered_relaxation : ∀ (minT : ℕ) (ps : List ProductProfile),
    (5 ≤ (ps.filter (tier1Pass minT)).length →
      select_candidates minT ps = ps.filter (tier1Pass minT)) ∧
    ((ps.filter (tier1Pass minT)).length < 5 →
      3 ≤ (ps.filter tier2Pass).length →
      select_candidates minT ps = ps.filter tier2Pass) ∧
    ((ps.filter (tier1Pass minT)).length < 5 →
      (ps.filter tier2Pass).length < 3 →
      select_candidates minT ps = ps.filter tier3Pass) ∧
    (∀ p, tier2Pass p = true → tier3Pass p = true) ∧
    (15 ≤ minT → ∀ p, tier1Pass minT p = true → tier2Pass p = true) := by
  intro minT ps
  refine ⟨?_, ?_, ?_, ?_, ?_⟩
  · intro h5
    simp only [select_candidates]
    rw [if_neg (by omega)]
  · intro h5 h3
    simp only [select_candidates]
    rw [if_pos (by omega), if_neg (by omega)]
  · intro h5 h3
    simp only [select_candidates]
    rw [if_pos (by omega), if_pos (by omega)]
  · intro p hp
    simp only [tier2Pass, decide_eq_true_eq] at hp
    simp only [tier3Pass, decide_eq_true_eq]
    refine ⟨by omega, by linarith [hp.2.1], by omega⟩
  · intro hmin p hp
    simp only [tier1Pass, decide_eq_true_eq] at hp
    simp only [tier2Pass, decide_eq_true_eq]
    refine ⟨by omega, by linarith [hp.2.1], by omega, by linarith [hp.2.2.2]⟩

/-- C3 witness: a concrete run through all three tiers. -/
theorem C3_tiered_relaxation_witness :
    (([⟨20, 1, 8, 1⟩] : List ProductProfile).filter (tier1Pass 20)).length < 5 ∧
    (([⟨20, 1, 8, 1⟩] : List ProductProfile).filter tier2Pass).length < 3 ∧
    select_candidates 20 [⟨20, 1, 8, 1⟩] =
      ([⟨20, 1, 8, 1⟩] : List ProductProfile).filter tier3Pass := by
  have h1 : (([⟨20, 1, 8, 1⟩] : List ProductProfile).filter
      (tier1Pass 20)).length < 5 :=
    lt_of_le_of_lt (List.length_filter_le _ _) (by norm_num)
  have h2 : (([⟨20, 1, 8, 1⟩] : List ProductProfile).filter
      tier2Pass).length < 3 :=
    lt_of_le_of_lt (List.length_filter_le _ _) (by norm_num)
  exact ⟨h1, h2, (C3_tiered_relaxation 20 [⟨20, 1, 8, 1⟩]).2.2.1 h1 h2⟩

/-- C5: the dynamic quantile segmenter requests 5 bins for at least 8
distinct prices, 4 bins for 5 to 7, 3 bins for 3 or 4, and yields no
segmentation below 3 distinct prices. -/
theorem C5_dynamic_quantile_bins : ∀ prices : List ℚ,
    (8 ≤ nuniqueQ prices → create_price_segments_dynamic prices = some 5) ∧
    (5 ≤ nuniqueQ prices ∧ nuniqueQ prices ≤ 7 →
      create_price_segments_dynamic prices = some 4) ∧
    (3 ≤ nuniqueQ prices ∧ nuniqueQ prices ≤ 4 →
      create_price_segments_dynamic prices = some 3) ∧
    (nuniqueQ prices < 3 → create_price_segments_dynamic prices = none) := by
  intro prices
  simp only [create_price_segments_dynamic]
  split_ifs with h1 h2 h3 <;>
    refine ⟨fun h => ?_, fun h => ?_, fun h => ?_, fun h => ?_⟩ <;>
    first | rfl | (exfalso; omega)

/-- C5 witness: three distinct prices give a tercile segmentation. -/
theorem C5_dynamic_quantile_bins_witness :
    (3 ≤ nuniqueQ [(1 : ℚ), 2, 3] ∧ nuniqueQ [(1 : ℚ), 2, 3] ≤ 4) ∧
    create_price_segments_dynamic [(1 : ℚ), 2, 3] = some 3 :=
  ⟨by decide, (C5_dynamic_quantile_bins [(1 : ℚ), 2, 3]).2.2.1 (by decide)⟩

/-- C2 counterexample: a positive-elasticity estimate (elasticity 2,
R² 0.5) passing the plausibility window is returned by `run_analysis`
inside the normal result set when no negative-elasticity estimate passes. -/
theorem C2_counterexample :
    (0 : ℚ) < (2 : ℚ) ∧ plausibleRow ⟨2, 1/2, 3⟩ = true ∧
    run_analysis_select [⟨2, 1/2, 3⟩] = [⟨2, 1/2, 3⟩] ∧
    ¬ (∀ (rows : List ResultRow) (r : ResultRow),
      r ∈ run_analysis_select rows → r.elasticity < 0) := by
  have hp : plausibleRow ⟨2, 1/2, 3⟩ = true := by
    simp only [plausibleRow, decide_eq_true_eq]
    norm_num
  have hsel : run_analysis_select [⟨2, 1/2, 3⟩] = [⟨2, 1/2, 3⟩] := by
    simp [run_analysis_select, negativeRows, hp]
  refine ⟨by norm_num, hp, hsel, ?_⟩
  intro hall
  have := hall [⟨2, 1/2, 3⟩] ⟨2, 1/2, 3⟩ (by rw [hsel]; exact List.mem_singleton.mpr rfl)
  norm_num at this

/-- C2 (amended): the strict result filters keep a row exactly when R²
clears the configured minimum (at least 0.4, resp. strictly above 0.3),
elasticity is strictly negative and above −5, and the segment/observation
count is at least 3; they never keep a nonnegative elasticity.  The final
analyzer's selection instead keeps exactly the negative plausible rows when
at least one exists, but returns the positive plausible rows when none does
(and all raw rows when nothing is plausible, see C10). -/
theorem C2_result_filters :
    ∀ (rows : List ResultRow) (erows : List ElasticityRow)
      (r : ResultRow) (s : ElasticityRow),
    (r ∈ mejorado_valid_filter rows ↔ r ∈ rows ∧ (2/5 : ℚ) ≤ r.r2 ∧
      r.elasticity < 0 ∧ -5 < r.elasticity ∧ 3 ≤ r.segments) ∧
    (s ∈ analisis_valid_filter erows ↔ s ∈ erows ∧ (3/10 : ℚ) < s.r2 ∧
      s.elasticidad < 0 ∧ -5 < s.elasticidad ∧ 3 ≤ s.observaciones) ∧
    (r ∈ mejorado_valid_filter rows → r.elasticity < 0) ∧
    (s ∈ analisis_valid_filter erows → s.elasticidad < 0) ∧
    (negativeRows (rows.filter plausibleRow) ≠ [] →
      run_analysis_select rows = negativeRows (rows.filter plausibleRow)) ∧
    (rows.filter plausibleRow ≠ [] →
      negativeRows (rows.filter plausibleRow) = [] →
      run_analysis_select rows = rows.filter plausibleRow) := by
  intro rows erows r s
  have hmej : r ∈ mejorado_valid_filter rows ↔ r ∈ rows ∧ (2/5 : ℚ) ≤ r.r2 ∧
      r.elasticity < 0 ∧ -5 < r.elasticity ∧ 3 ≤ r.segments := by
    simp [mejorado_valid_filter, List.mem_filter, decide_eq_true_eq, and_assoc]
  have hana : s ∈ analisis_valid_filter erows ↔ s ∈ erows ∧
      (3/10 : ℚ) < s.r2 ∧ s.elasticidad < 0 ∧ -5 < s.elasticidad ∧
      3 ≤ s.observaciones := by
    simp [analisis_valid_filter, List.mem_filter, decide_eq_true_eq, and_assoc]
  refine ⟨hmej, hana, fun hr => (hmej.mp hr).2.2.1, fun hs => (hana.mp hs).2.2.1,
    ?_, ?_⟩
  · intro hneg
    simp only [run_analysis_select]
    rw [if_neg, if_neg]
    · simpa [List.isEmpty_iff] using hneg
    · rw [List.isEmpty_iff]
      intro hval
      exact hneg (by simp [negativeRows, hval])
  · intro hval hneg
    simp only [run_analysis_select]
    rw [if_neg (by simpa [List.isEmpty_iff] using hval),
      if_pos (by simpa [List.isEmpty_iff] using hneg)]

/-- C2 witness: with a single negative plausible row the selection returns
exactly that row. -/
theorem C2_result_filters_witness :
    negativeRows (([⟨-1, 1/2, 3⟩] : List ResultRow).filter plausibleRow) ≠ [] ∧
    run_analysis_select [⟨-1, 1/2, 3⟩] =
      negativeRows (([⟨-1, 1/2, 3⟩] : List ResultRow).filter plausibleRow) := by
  have hfil : ([⟨-1, 1/2, 3⟩] : List ResultRow).filter plausibleRow =
      [⟨-1, 1/2, 3⟩] := by
    norm_num [List.filter_cons, plausibleRow]
  have hneg : negativeRows (([⟨-1, 1/2, 3⟩] : List ResultRow).filter
      plausibleRow) ≠ [] := by
    rw [hfil]
    norm_num [negativeRows, List.filter_cons]
  exact ⟨hneg,
    (C2_result_filters [⟨-1, 1/2, 3⟩] [] ⟨-1, 1/2, 3⟩
      ⟨-1, 1/2, 3⟩).2.2.2.2.1 hneg⟩

/-- C10: when at least one estimate was computed but none passes the
plausibility window, `run_analysis` returns every computed raw row,
each paired with its category from the threshold ladder. -/
theorem C10_unfiltered_fallback : ∀ rows : List ResultRow, rows ≠ [] →
    rows.filter plausibleRow = [] →
    run_analysis_select rows = rows ∧
    run_analysis_output rows =
      rows.map fun r => (r, categorize_elasticity_final r.elasticity) := by
  intro rows hne hemp
  have hsel : run_analysis_select rows = rows := by
    simp only [run_analysis_select]
    rw [if_pos (by simp [List.isEmpty_iff, hemp])]
  exact ⟨hsel, by simp only [run_analysis_output, hsel]⟩

/-- C10 witness: a single out-of-range estimate (elasticity 25) is
returned unfiltered, categorised by the ladder. -/
theorem C10_unfiltered_fallback_witness :
    ([⟨25, 1/2, 3⟩] : List ResultRow) ≠ [] ∧
    ([⟨25, 1/2, 3⟩] : List ResultRow).filter plausibleRow = [] ∧
    run_analysis_select [⟨25, 1/2, 3⟩] = [⟨25, 1/2, 3⟩] ∧
    run_analysis_output [⟨25, 1/2, 3⟩] =
      [(⟨25, 1/2, 3⟩, categorize_elasticity_final 25)] := by
  have hemp : ([⟨25, 1/2, 3⟩] : List ResultRow).filter plausibleRow = [] := by
    norm_num [List.filter_cons, plausibleRow]
  have h := C10_unfiltered_fallback [⟨25, 1/2, 3⟩] (by simp) hemp
  exact ⟨by simp, hemp, h.1, by simpa using h.2⟩

/-- Folding the method loop from an accumulator that already holds a best
result: the final pair again holds a result and its `r2`, the result is the
old one or comes from a successful attempt, and its `r2` dominates the old
best and every successful attempt seen. -/
theorem robustStep_foldl_some (atts : List (Option MethodResult))
    (cur : MethodResult) :
    ∃ b, atts.foldl robustStep (some cur, cur.r2) = (some b, b.r2) ∧
      (b = cur ∨ b ∈ atts.filterMap id) ∧ cur.r2 ≤ b.r2 ∧
      ∀ s ∈ atts.filterMap id, s.r2 ≤ b.r2 := by
  induction atts generalizing cur with
  | nil => exact ⟨cur, rfl, Or.inl rfl, le_refl _, by simp⟩
  | cons a t ih =>
    match a with
    | none =>
      obtain ⟨b, hfold, hmem, hle, hall⟩ := ih cur
      exact ⟨b, hfold, hmem, hle, by simpa using hall⟩
    | some r =>
      by_cases hlt : cur.r2 < r.r2
      · obtain ⟨b, hfold, hmem, hle, hall⟩ := ih r
        refine ⟨b, ?_, ?_, by linarith, ?_⟩
        · simpa [robustStep, hlt] using hfold
        · rcases hmem with h | h
          · exact Or.inr (by simp [h])
          · exact Or.inr (by simp [h])
        · intro s hs
          rcases (by simpa using hs : s = r ∨ s ∈ t.filterMap id) with h | h
          · subst h; linarith
          · exact hall s h
      · obtain ⟨b, hfold, hmem, hle, hall⟩ := ih cur
        refine ⟨b, ?_, ?_, hle, ?_⟩
        · simpa [robustStep, hlt] using hfold
        · rcases hmem with h | h
          · exact Or.inl h
          · exact Or.inr (by simp [h])
        · intro s hs
          rcases (by simpa using hs : s = r ∨ s ∈ t.filterMap id) with h | h
          · subst h; linarith
          · exact hall s h

/-- Folding the method loop from the initial accumulator `(None, -1)`: as
soon as some successful attempt has `r2 > -1`, the loop ends with a
successful attempt whose `r2` dominates all successful attempts. -/
theorem robustStep_foldl_start (atts : List (Option MethodResult)) :
    (∃ s ∈ atts.filterMap id, -1 < s.r2) →
    ∃ b, atts.foldl robustStep (none, -1) = (some b, b.r2) ∧
      b ∈ atts.filterMap id ∧ ∀ s ∈ atts.filterMap id, s.r2 ≤ b.r2 := by
  induction atts with
  | nil => rintro ⟨s, hs, -⟩; simp at hs
  | cons a t ih =>
    intro hex
    match a with
    | none =>
      obtain ⟨b, hfold, hmem, hall⟩ := ih (by simpa using hex)
      exact ⟨b, hfold, by simpa using hmem, by simpa using hall⟩
    | some r =>
      by_cases hlt : (-1 : ℚ) < r.r2
      · obtain ⟨b, hfold, hmem, hle, hall⟩ := robustStep_foldl_some t r
        refine ⟨b, ?_, ?_, ?_⟩
        · simpa [robustStep, hlt] using hfold
        · rcases hmem with h | h
          · exact (by simp [h])
          · exact (by simp [h])
        · intro s hs
          rcases (by simpa using hs : s = r ∨ s ∈ t.filterMap id) with h | h
          · subst h; exact hle
          · exact hall s h
      · obtain ⟨s0, hs0, hs0r⟩ := hex
        rcases (by simpa using hs0 : s0 = r ∨ s0 ∈ t.filterMap id) with h | h
        · subst h; exact absurd hs0r hlt
        · obtain ⟨b, hfold, hmem, hall⟩ := ih ⟨s0, h, hs0r⟩
          refine ⟨b, ?_, by simp [hmem], ?_⟩
          · simpa [robustStep, hlt] using hfold
          · intro s hs
            rcases (by simpa using hs : s = r ∨ s ∈ t.filterMap id) with
              hh | hh
            · subst hh
              have := hall s0 h
              linarith
            · exact hall s hh

/-- C4: whenever at least two segmentation methods succeed (and every
successful fit has a nonnegative R², as an ordinary-least-squares score on
its own training data always is), `calculate_elasticity_robust` returns one
of the successful results, and its R² is maximal among them. -/
theorem C4_max_r2_selection : ∀ attempts : List (Option MethodResult),
    2 ≤ (attempts.filterMap id).length →
    (∀ s ∈ attempts.filterMap id, 0 ≤ s.r2) →
    ∃ b, calculate_elasticity_robust attempts = some b ∧
      b ∈ attempts.filterMap id ∧
      ∀ s ∈ attempts.filterMap id, s.r2 ≤ b.r2 := by
  intro attempts hlen hnn
  have hne : attempts.filterMap id ≠ [] := by
    intro h
    rw [h] at hlen
    simp at hlen
  obtain ⟨s0, hs0⟩ := List.exists_mem_of_ne_nil _ hne
  obtain ⟨b, hfold, hmem, hall⟩ := robustStep_foldl_start attempts
    ⟨s0, hs0, lt_of_lt_of_le (by norm_num) (hnn s0 hs0)⟩
  exact ⟨b, by simp [calculate_elasticity_robust, hfold], hmem, hall⟩

/-- C4 witness: of two successful methods the one with the larger R²
(0.75 over 0.5) is returned. -/
theorem C4_max_r2_selection_witness :
    2 ≤ (([some ⟨-1, 1/2, "dynamic", 3⟩, none, some ⟨-2, 3/4, "percentile", 4⟩] :
      List (Option MethodResult)).filterMap id).length ∧
    (∀ s ∈ ([some ⟨-1, 1/2, "dynamic", 3⟩, none,
      some ⟨-2, 3/4, "percentile", 4⟩] :
      List (Option MethodResult)).filterMap id, 0 ≤ s.r2) ∧
    ∃ b, calculate_elasticity_robust [some ⟨-1, 1/2, "dynamic", 3⟩, none,
      some ⟨-2, 3/4, "percentile", 4⟩] = some b ∧
      b ∈ ([some ⟨-1, 1/2, "dynamic", 3⟩, none,
        some ⟨-2, 3/4, "percentile", 4⟩] :
        List (Option MethodResult)).filterMap id ∧
      ∀ s ∈ ([some ⟨-1, 1/2, "dynamic", 3⟩, none,
        some ⟨-2, 3/4, "percentile", 4⟩] :
        List (Option MethodResult)).filterMap id, s.r2 ≤ b.r2 := by
  have h2 : 2 ≤ (([some ⟨-1, 1/2, "dynamic", 3⟩, none,
      some ⟨-2, 3/4, "percentile", 4⟩] :
      List (Option MethodResult)).filterMap id).length := by
    simp
  have hnn : ∀ s ∈ ([some ⟨-1, 1/2, "dynamic", 3⟩, none,
      some ⟨-2, 3/4, "percentile", 4⟩] :
      List (Option MethodResult)).filterMap id, 0 ≤ s.r2 := by
    intro s hs
    have hl : ([some ⟨-1, 1/2, "dynamic", 3⟩, none,
        some ⟨-2, 3/4, "percentile", 4⟩] :
        List (Option MethodResult)).filterMap id =
        [⟨-1, 1/2, "dynamic", 3⟩, ⟨-2, 3/4, "percentile", 4⟩] := rfl
    rw [hl] at hs
    fin_cases hs <;> norm_num
  exact ⟨h2, hnn, C4_max_r2_selection _ h2 hnn⟩

/-- C6: the advanced estimator drops buckets with fewer than 2 underlying
transactions before estimating; it returns `None` (no exception) when fewer
than 3 buckets remain, or when the remaining bucket-level mean-price series
has zero variance; and a product that yields `None` leaves the results of
all other products in the batch unchanged. -/
theorem C6_thin_buckets_and_rejection : ∀ buckets : List (List Txn),
    (∀ agg, calculate_elasticity_advanced buckets = some agg →
      agg = (buckets.map aggBucket).filter (fun a => 2 ≤ a.transacciones) ∧
      3 ≤ agg.length ∧ ∀ a ∈ agg, 2 ≤ a.transacciones) ∧
    (((buckets.map aggBucket).filter
        (fun a => 2 ≤ a.transacciones)).length < 3 →
      calculate_elasticity_advanced buckets = none) ∧
    (sumSqDev (((buckets.map aggBucket).filter
        (fun a => 2 ≤ a.transacciones)).map BucketAgg.precio_medio) = 0 →
      calculate_elasticity_advanced buckets = none) ∧
    (∀ pre post, calculate_elasticity_advanced buckets = none →
      analyze_batch (pre ++ buckets :: post) =
        analyze_batch pre ++ analyze_batch post) := by
  intro buckets
  refine ⟨?_, ?_, ?_, ?_⟩
  · intro agg hagg
    simp only [calculate_elasticity_advanced] at hagg
    split_ifs at hagg with h1 h2 h3
    obtain rfl := Option.some.inj hagg
    refine ⟨rfl, by omega, ?_⟩
    intro a ha
    rw [List.mem_filter] at ha
    exact of_decide_eq_true ha.2
  · intro h
    simp only [calculate_elasticity_advanced]
    rw [if_pos h]
  · intro h
    simp only [calculate_elasticity_advanced]
    split_ifs with h1 <;> rfl
  · intro pre post hnone
    simp [analyze_batch, List.filterMap_append, List.filterMap_cons, hnone]

/-- C6 witness: two buckets of two identical transactions each survive the
thin-bucket drop but leave fewer than 3 buckets, so the product is
rejected. -/
theorem C6_thin_buckets_and_rejection_witness :
    ((([[⟨1, 1, 1⟩, ⟨1, 1, 1⟩], [⟨2, 1, 2⟩, ⟨2, 1, 2⟩]] :
      List (List Txn)).map aggBucket).filter
        (fun a => 2 ≤ a.transacciones)).length < 3 ∧
    calculate_elasticity_advanced
      [[⟨1, 1, 1⟩, ⟨1, 1, 1⟩], [⟨2, 1, 2⟩, ⟨2, 1, 2⟩]] = none := by
  have h : ((([[⟨1, 1, 1⟩, ⟨1, 1, 1⟩], [⟨2, 1, 2⟩, ⟨2, 1, 2⟩]] :
      List (List Txn)).map aggBucket).filter
        (fun a => 2 ≤ a.transacciones)).length < 3 :=
    lt_of_le_of_lt (List.length_filter_le _ _) (by simp)
  exact ⟨h,
    (C6_thin_buckets_and_rejection
      [[⟨1, 1, 1⟩, ⟨1, 1, 1⟩], [⟨2, 1, 2⟩, ⟨2, 1, 2⟩]]).2.1 h⟩

/-- A field passes the positivity test exactly when it is present and
strictly positive. -/
theorem posOpt_eq_true (o : Option ℚ) :
    posOpt o = true ↔ ∃ x, o = some x ∧ 0 < x := by
  cases o with
  | none => simp [posOpt]
  | some x => simp [posOpt]

/-- C7: the validator returns exactly the subsequence of records whose
price, quantity and revenue are all present and strictly positive; the
surviving records appear unchanged and in their original order. -/
theorem C7_validator_narrowing : ∀ rs : List RawRecord,
    (filter_valid_records rs).Sublist rs ∧
    ∀ r : RawRecord, r ∈ filter_valid_records rs ↔ r ∈ rs ∧
      (∃ p, r.precio = some p ∧ 0 < p) ∧
      (∃ q, r.qty_entregada = some q ∧ 0 < q) ∧
      (∃ m, r.importe = some m ∧ 0 < m) := by
  intro rs
  refine ⟨List.filter_sublist rs, ?_⟩
  intro r
  rw [filter_valid_records, List.mem_filter]
  constructor
  · rintro ⟨hmem, hval⟩
    simp only [validRecord, Bool.and_eq_true, posOpt_eq_true] at hval
    exact ⟨hmem, hval.1.1.1.1.1, hval.1.1.1.1.2, hval.1.1.1.2⟩
  · rintro ⟨hmem, ⟨p, hps, hpp⟩, ⟨q, hqs, hqp⟩, ⟨m, hms, hmp⟩⟩
    refine ⟨hmem, ?_⟩
    simp only [validRecord, Bool.and_eq_true, posOpt_eq_true]
    exact ⟨⟨⟨⟨⟨⟨p, hps, hpp⟩, ⟨q, hqs, hqp⟩⟩, ⟨m, hms, hmp⟩⟩,
      by simp [hps]⟩, by simp [hqs]⟩, by simp [hms]⟩

theorem meanQ_map_mul (l : List ℚ) (k : ℚ) :
    meanQ (l.map fun x => k * x) = k * meanQ l := by
  simp only [meanQ, List.length_map]
  rw [show (l.map fun x => k * x).sum = k * l.sum by
    simpa using List.sum_map_mul_left l id k]
  ring

theorem sumSqDev_map_mul (l : List ℚ) (k : ℚ) :
    sumSqDev (l.map fun x => k * x) = k ^ 2 * sumSqDev l := by
  simp only [sumSqDev, meanQ_map_mul, List.map_map]
  have h1 : ((fun x => (x - k * meanQ l) ^ 2) ∘ fun x => k * x) =
      fun x => k ^ 2 * (x - meanQ l) ^ 2 := by
    funext x
    simp only [Function.comp_apply]
    ring
  rw [h1]
  simpa using List.sum_map_mul_left l (fun x => (x - meanQ l) ^ 2) (k ^ 2)

theorem sampleVar_map_mul (l : List ℚ) (k : ℚ) :
    sampleVar (l.map fun x => k * x) = k ^ 2 * sampleVar l := by
  simp only [sampleVar, sumSqDev_map_mul, List.length_map]
  ring

theorem stdQ_map_mul (l : List ℚ) (k : ℚ) (hk : 0 ≤ k) :
    stdQ (l.map fun x => k * x) = (k : ℝ) * stdQ l := by
  simp only [stdQ, sampleVar_map_mul]
  push_cast
  rw [Real.sqrt_mul (by positivity), Real.sqrt_sq (by exact_mod_cast hk)]

theorem minQ_map_mul (l : List ℚ) (k : ℚ) (hk : 0 ≤ k) :
    minQ (l.map fun x => k * x) = k * minQ l := by
  have key : ∀ (t : List ℚ) (x : ℚ),
      (t.map fun y => k * y).foldl min (k * x) = k * t.foldl min x := by
    intro t
    induction t with
    | nil => intro x; rfl
    | cons a t ih =>
      intro x
      simp only [List.map_cons, List.foldl_cons]
      rw [show min (k * x) (k * a) = k * min x a by
        rcases le_total x a with h | h
        · rw [min_eq_left h, min_eq_left (mul_le_mul_of_nonneg_left h hk)]
        · rw [min_eq_right h, min_eq_right (mul_le_mul_of_nonneg_left h hk)]]
      exact ih (min x a)
  cases l with
  | nil => simp [minQ]
  | cons x t => simpa [minQ] using key t x

theorem maxQ_map_mul (l : List ℚ) (k : ℚ) (hk : 0 ≤ k) :
    maxQ (l.map fun x => k * x) = k * maxQ l := by
  have key : ∀ (t : List ℚ) (x : ℚ),
      (t.map fun y => k * y).foldl max (k * x) = k * t.foldl max x := by
    intro t
    induction t with
    | nil => intro x; rfl
    | cons a t ih =>
      intro x
      simp only [List.map_cons, List.foldl_cons]
      rw [show max (k * x) (k * a) = k * max x a by
        rcases le_total x a with h | h
        · rw [max_eq_right h, max_eq_right (mul_le_mul_of_nonneg_left h hk)]
        · rw [max_eq_left h, max_eq_left (mul_le_mul_of_nonneg_left h hk)]]
      exact ih (max x a)
  cases l with
  | nil => simp [maxQ]
  | cons x t => simpa [maxQ] using key t x

/-- C9: rescaling every price of a product by a constant `k > 0` changes
neither the coefficient of variation `std / mean` nor the price range
percentage `(max - min) / mean * 100`. -/
theorem C9_scale_invariance : ∀ (l : List ℚ) (k : ℚ), 0 < k →
    price_cv (l.map fun x => k * x) = price_cv l ∧
    rango_pct (l.map fun x => k * x) = rango_pct l := by
  intro l k hk
  constructor
  · simp only [price_cv, stdQ_map_mul l k hk.le, meanQ_map_mul]
    push_cast
    exact mul_div_mul_left _ _ (by exact_mod_cast hk.ne')
  · simp only [rango_pct, minQ_map_mul l k hk.le, maxQ_map_mul l k hk.le,
      meanQ_map_mul]
    rw [show k * maxQ l - k * minQ l = k * (maxQ l - minQ l) by ring,
      mul_div_mul_left _ _ hk.ne']

/-- C9 witness: doubling the prices 1 and 2 leaves CV and range%
unchanged. -/
theorem C9_scale_invariance_witness :
    (0 : ℚ) < 2 ∧
    (price_cv ([(1 : ℚ), 2].map fun x => 2 * x) = price_cv [(1 : ℚ), 2] ∧
      rango_pct ([(1 : ℚ), 2].map fun x => 2 * x) = rango_pct [(1 : ℚ), 2]) :=
  ⟨by norm_num, C9_scale_invariance [(1 : ℚ), 2] 2 (by norm_num)⟩

theorem charToDigit_digitChar (d : ℕ) (hd : d < 10) :
    charToDigit (digitChar d) = some d := by
  interval_cases d <;> decide

theorem digitChar_not_special (d : ℕ) (hd : d < 10) :
    digitChar d ≠ '.' ∧ digitChar d ≠ ',' ∧ digitChar d ≠ '-' ∧
      digitChar d ≠ '+' := by
  interval_cases d <;> decide

theorem parseDigitsAux_map_digitChar : ∀ ds : List ℕ, (∀ d ∈ ds, d < 10) →
    ∀ acc, parseDigitsAux (ds.map digitChar) acc =
      some (ds.foldl (fun a d => 10 * a + d) acc) := by
  intro ds
  induction ds with
  | nil => intro _ acc; rfl
  | cons d t ih =>
    intro hds acc
    have hd : d < 10 := hds d (List.mem_cons_self d t)
    simp only [List.map_cons, parseDigitsAux, charToDigit_digitChar d hd,
      List.foldl_cons]
    exact ih (fun x hx => hds x (List.mem_cons_of_mem d hx)) (10 * acc + d)

theorem foldl_base_ten : ∀ ds : List ℕ, ∀ acc,
    ds.foldl (fun a d => 10 * a + d) acc =
      acc * 10 ^ ds.length + Nat.ofDigits 10 ds.reverse := by
  intro ds
  induction ds with
  | nil => intro acc; simp [Nat.ofDigits]
  | cons d t ih =>
    intro acc
    simp only [List.foldl_cons, ih, List.reverse_cons, Nat.ofDigits_append,
      List.length_cons, List.length_reverse, Nat.ofDigits_singleton]
    ring

theorem parseDigits_eq_aux (cs : List Char) (h : cs ≠ []) :
    parseDigits cs = parseDigitsAux cs 0 := by
  cases cs with
  | nil => exact absurd rfl h
  | cons c t => rfl

theorem parseDigitsAux_digits (m : ℕ) :
    parseDigitsAux ((Nat.digits 10 m).reverse.map digitChar) 0 = some m := by
  rw [parseDigitsAux_map_digitChar _
    (fun d hd => Nat.digits_lt_base (by norm_num)
      (List.mem_reverse.mp hd)) 0]
  rw [foldl_base_ten, List.reverse_reverse, Nat.ofDigits_digits]
  simp

theorem parseDigits_natChars (n : ℕ) : parseDigits (natChars n) = some n := by
  by_cases hn : n = 0
  · subst hn; rfl
  · rw [natChars, if_neg hn, parseDigits_eq_aux _ (by
      simp [Nat.digits_ne_nil_iff_ne_zero.mpr hn]),
      parseDigitsAux_digits]

theorem parseDigitsAux_replicate_zero : ∀ (j : ℕ) (rest : List Char),
    parseDigitsAux (List.replicate j '0' ++ rest) 0 =
      parseDigitsAux rest 0 := by
  intro j
  induction j with
  | zero => intro rest; rfl
  | succ j ih =>
    intro rest
    simp only [List.replicate_succ, List.cons_append, parseDigitsAux,
      show charToDigit '0' = some 0 from rfl]
    simpa using ih rest

theorem fracChars_length (m k : ℕ) (hm : m < 10 ^ k) :
    (fracChars m k).length = k := by
  have hlen : (Nat.digits 10 m).length ≤ k := by
    by_cases hm0 : m = 0
    · simp [hm0]
    · have h1 := (Nat.lt_pow_iff_log_lt (by norm_num) hm0).mp hm
      rw [Nat.digits_len 10 m (by norm_num) hm0]
      omega
  simp only [fracChars, List.length_append, List.length_replicate,
    List.length_map, List.length_reverse]
  omega

theorem parseDigits_fracChars (m k : ℕ) (hm : m < 10 ^ k) (hk : k ≠ 0) :
    parseDigits (fracChars m k) = some m := by
  have hne : fracChars m k ≠ [] := by
    intro h
    have := fracChars_length m k hm
    rw [h] at this
    simp at this
    omega
  rw [parseDigits_eq_aux _ hne, fracChars, parseDigitsAux_replicate_zero,
    parseDigitsAux_digits]

theorem splitDot_no_dot : ∀ cs : List Char, (∀ c ∈ cs, c ≠ '.') →
    splitDot cs = (cs, none) := by
  intro cs
  induction cs with
  | nil => intro _; rfl
  | cons c t ih =>
    intro h
    simp only [splitDot, if_neg (h c (List.mem_cons_self c t))]
    rw [ih fun x hx => h x (List.mem_cons_of_mem c hx)]

theorem splitDot_append : ∀ (a b : List Char), (∀ c ∈ a, c ≠ '.') →
    splitDot (a ++ '.' :: b) = (a, some b) := by
  intro a b
  induction a with
  | nil => intro _; simp [splitDot]
  | cons c t ih =>
    intro h
    simp only [List.cons_append, splitDot,
      if_neg (h c (List.mem_cons_self c t))]
    rw [show t.append ('.' :: b) = t ++ '.' :: b from rfl,
      ih fun x hx => h x (List.mem_cons_of_mem c hx)]

theorem natChars_digit_mem (n : ℕ) :
    ∀ c ∈ natChars n, ∃ d, d < 10 ∧ c = digitChar d := by
  intro c hc
  by_cases hn : n = 0
  · subst hn
    rw [show natChars 0 = ['0'] from rfl, List.mem_singleton] at hc
    exact ⟨0, by norm_num, by rw [hc]; rfl⟩
  · rw [natChars, if_neg hn] at hc
    obtain ⟨d, hd, rfl⟩ := List.mem_map.mp hc
    exact ⟨d, Nat.digits_lt_base (by norm_num) (List.mem_reverse.mp hd), rfl⟩

theorem fracChars_digit_mem (m k : ℕ) :
    ∀ c ∈ fracChars m k, ∃ d, d < 10 ∧ c = digitChar d := by
  intro c hc
  rw [fracChars, List.mem_append] at hc
  rcases hc with hc | hc
  · exact ⟨0, by norm_num, (List.eq_of_mem_replicate hc)⟩
  · obtain ⟨d, hd, rfl⟩ := List.mem_map.mp hc
    exact ⟨d, Nat.digits_lt_base (by norm_num) (List.mem_reverse.mp hd), rfl⟩

theorem natChars_ne_nil (n : ℕ) : natChars n ≠ [] := by
  by_cases hn : n = 0
  · subst hn; simp [natChars]
  · rw [natChars, if_neg hn]
    simp [Nat.digits_ne_nil_iff_ne_zero.mpr hn]

theorem mul_den_eq_num (q : ℚ) : q * (q.den : ℚ) = (q.num : ℚ) := by
  have h := Rat.num_div_den q
  have hden : ((q.den : ℚ)) ≠ 0 := Nat.cast_ne_zero.mpr q.den_nz
  calc q * (q.den : ℚ)
      = ((q.num : ℚ) / (q.den : ℚ)) * (q.den : ℚ) := by rw [h]
    _ = (q.num : ℚ) := div_mul_cancel₀ _ hden

/-- Integer-part/fraction-part round trip for a nonnegative rational whose
denominator divides `10 ^ q.den`. -/
theorem parse_renderPos (q : ℚ) (hq : 0 ≤ q) (hden : q.den ∣ 10 ^ q.den) :
    parseUnsignedChars (renderPosChars q) = some q := by
  by_cases h1 : q.den = 1
  · rw [renderPosChars, if_pos h1]
    have hsp : splitDot (natChars q.num.toNat) =
        (natChars q.num.toNat, none) := by
      refine splitDot_no_dot _ ?_
      intro c hc
      obtain ⟨d, hd, rfl⟩ := natChars_digit_mem _ c hc
      exact (digitChar_not_special d hd).1
    have hpd := parseDigits_natChars q.num.toNat
    simp only [parseUnsignedChars, hsp, hpd]
    show some ((q.num.toNat : ℕ) : ℚ) = some q
    have hnum : (0 : ℤ) ≤ q.num := Rat.num_nonneg.mpr hq
    have h2 : ((q.num.toNat : ℕ) : ℤ) = q.num := Int.toNat_of_nonneg hnum
    have h3 : ((q.num.toNat : ℕ) : ℚ) = ((q.num : ℤ) : ℚ) := by
      exact_mod_cast congrArg (fun z : ℤ => (z : ℚ)) h2
    rw [h3, Rat.coe_int_num_of_den_eq_one h1]
  · have hk0 : q.den ≠ 0 := q.den_nz
    have hkpos : 0 < (10 : ℕ) ^ q.den := Nat.pos_pow_of_pos _ (by norm_num)
    obtain ⟨c, hc⟩ := hden
    have h10 : ((10 : ℚ)) ^ q.den = (q.den : ℚ) * (c : ℚ) := by
      exact_mod_cast congrArg (fun m : ℕ => (m : ℚ)) hc
    have hint : q * (10 : ℚ) ^ q.den = ((q.num * (c : ℤ) : ℤ) : ℚ) := by
      rw [h10, ← mul_assoc, mul_den_eq_num]
      push_cast
      ring
    have hnum : (0 : ℤ) ≤ (q * (10 : ℚ) ^ q.den).num :=
      Rat.num_nonneg.mpr (mul_nonneg hq (by positivity))
    have hcast : (((q * (10 : ℚ) ^ q.den).num.toNat : ℕ) : ℚ) =
        q * (10 : ℚ) ^ q.den := by
      have h2 : (((q * (10 : ℚ) ^ q.den).num.toNat : ℕ) : ℤ) =
          (q * (10 : ℚ) ^ q.den).num := Int.toNat_of_nonneg hnum
      have h3 : (((q * (10 : ℚ) ^ q.den).num.toNat : ℕ) : ℚ) =
          (((q * (10 : ℚ) ^ q.den).num : ℤ) : ℚ) := by
        exact_mod_cast congrArg (fun z : ℤ => (z : ℚ)) h2
      rw [h3, hint, Rat.num_intCast]
    set n := (q * (10 : ℚ) ^ q.den).num.toNat with hn
    have hmod : n % 10 ^ q.den < 10 ^ q.den := Nat.mod_lt _ hkpos
    have hfp_len : (fracChars (n % 10 ^ q.den) q.den).length = q.den :=
      fracChars_length _ _ hmod
    have hfp_ne : fracChars (n % 10 ^ q.den) q.den ≠ [] := by
      intro h
      rw [h] at hfp_len
      simp at hfp_len
      omega
    have hip_ne : natChars (n / 10 ^ q.den) ≠ [] := natChars_ne_nil _
    have hsp : splitDot (renderPosChars q) =
        (natChars (n / 10 ^ q.den),
          some (fracChars (n % 10 ^ q.den) q.den)) := by
      rw [renderPosChars, if_neg h1]
      refine splitDot_append _ _ ?_
      intro x hx
      obtain ⟨d, hd, rfl⟩ := natChars_digit_mem _ x hx
      exact (digitChar_not_special d hd).1
    simp only [parseUnsignedChars, hsp]
    rw [if_neg hfp_ne, if_neg hip_ne, parseDigits_natChars,
      parseDigits_fracChars _ _ hmod hk0, hfp_len]
    have h10q : ((10 : ℚ)) ^ q.den ≠ 0 := by positivity
    show some (((n / 10 ^ q.den : ℕ) : ℚ) +
      ((n % 10 ^ q.den : ℕ) : ℚ) / 10 ^ q.den) = some q
    refine congrArg some ?_
    have hdm : (10 : ℚ) ^ q.den * ((n / 10 ^ q.den : ℕ) : ℚ) +
        ((n % 10 ^ q.den : ℕ) : ℚ) = ((n : ℕ) : ℚ) := by
      exact_mod_cast congrArg (fun m : ℕ => (m : ℚ))
        (Nat.div_add_mod n (10 ^ q.den))
    have key : (((n / 10 ^ q.den : ℕ) : ℚ) +
        ((n % 10 ^ q.den : ℕ) : ℚ) / 10 ^ q.den) * (10 : ℚ) ^ q.den =
        q * (10 : ℚ) ^ q.den := by
      rw [add_mul, div_mul_cancel₀ _ h10q, ← hcast]
      linarith [hdm]
    exact mul_right_cancel₀ h10q key

theorem renderPos_head (q : ℚ) :
    ∃ d rest, d < 10 ∧ renderPosChars q = digitChar d :: rest := by
  rw [renderPosChars]
  split_ifs with h1
  · obtain ⟨c, t, hnc⟩ : ∃ c t, natChars q.num.toNat = c :: t := by
      cases hx : natChars q.num.toNat with
      | nil => exact absurd hx (natChars_ne_nil _)
      | cons c t => exact ⟨c, t, rfl⟩
    have hc : c ∈ natChars q.num.toNat := by
      rw [hnc]; exact List.mem_cons_self c t
    obtain ⟨d, hd, hcd⟩ := natChars_digit_mem _ c hc
    subst hcd
    exact ⟨d, t, hd, hnc⟩
  · obtain ⟨c, t, hnc⟩ : ∃ c t,
        natChars ((q * (10 : ℚ) ^ q.den).num.toNat / 10 ^ q.den) = c :: t := by
      cases hx : natChars ((q * (10 : ℚ) ^ q.den).num.toNat / 10 ^ q.den) with
      | nil => exact absurd hx (natChars_ne_nil _)
      | cons c t => exact ⟨c, t, rfl⟩
    have hc : c ∈ natChars ((q * (10 : ℚ) ^ q.den).num.toNat / 10 ^ q.den) := by
      rw [hnc]; exact List.mem_cons_self c t
    obtain ⟨d, hd, hcd⟩ := natChars_digit_mem _ c hc
    subst hcd
    refine ⟨d, t ++ '.' :: fracChars ((q * (10 : ℚ) ^ q.den).num.toNat %
      10 ^ q.den) q.den, hd, ?_⟩
    rw [hnc]
    rfl

/-- Parsing the rendering of any terminating-decimal rational recovers it,
sign included. -/
theorem parse_renderQ (q : ℚ) (hden : q.den ∣ 10 ^ q.den) :
    parseNumChars (renderQChars q) = some q := by
  by_cases hneg : q < 0
  · rw [renderQChars, if_pos hneg]
    have hd : (-q).den = q.den := Rat.neg_den q
    have h := parse_renderPos (-q) (by linarith) (by rw [hd]; exact hden)
    have hstep : parseNumChars ('-' :: renderPosChars (-q)) =
        match parseUnsignedChars (renderPosChars (-q)) with
        | some x => some (-x)
        | none => none := by
      simp only [parseNumChars]
      rw [if_true]
    rw [hstep, h]
    show some (-(-q)) = some q
    rw [neg_neg]
  · rw [renderQChars, if_neg hneg]
    obtain ⟨d, rest, hd, hrp⟩ := renderPos_head q
    rw [hrp]
    simp only [parseNumChars,
      if_neg ((digitChar_not_special d hd).2.2.1),
      if_neg ((digitChar_not_special d hd).2.2.2)]
    rw [← hrp, parse_renderPos q (not_lt.mp hneg) hden]

theorem replaceComma_of_no_comma (cs : List Char) (h : ∀ c ∈ cs, c ≠ ',') :
    replaceComma cs = cs := by
  rw [replaceComma]
  have heq : ∀ c ∈ cs, (if c = ',' then '.' else c) = id c :=
    fun c hc => if_neg (h c hc)
  rw [List.map_congr_left heq, List.map_id]

theorem renderPos_no_comma (q : ℚ) : ∀ c ∈ renderPosChars q, c ≠ ',' := by
  intro c hc
  rw [renderPosChars] at hc
  split_ifs at hc with h1
  · obtain ⟨d, hd, rfl⟩ := natChars_digit_mem _ c hc
    exact (digitChar_not_special d hd).2.1
  · rw [List.mem_append, List.mem_cons] at hc
    rcases hc with hc | hc | hc
    · obtain ⟨d, hd, rfl⟩ := natChars_digit_mem _ c hc
      exact (digitChar_not_special d hd).2.1
    · rw [hc]; decide
    · obtain ⟨d, hd, rfl⟩ := fracChars_digit_mem _ _ c hc
      exact (digitChar_not_special d hd).2.1

theorem renderQ_no_comma (q : ℚ) : ∀ c ∈ renderQChars q, c ≠ ',' := by
  intro c hc
  rw [renderQChars] at hc
  split_ifs at hc with h1
  · rw [List.mem_cons] at hc
    rcases hc with hc | hc
    · rw [hc]; decide
    · exact renderPos_no_comma _ c hc
  · exact renderPos_no_comma _ c hc

theorem den_div_natCast (a b : ℕ) : (((a : ℚ)) / (b : ℚ)).den ∣ b := by
  have h := Rat.den_dvd (a : ℤ) (b : ℤ)
  rw [Rat.divInt_eq_div] at h
  push_cast at h
  exact_mod_cast h

theorem parseUnsigned_den_dvd (cs : List Char) (q : ℚ)
    (h : parseUnsignedChars cs = some q) : ∃ l, q.den ∣ 10 ^ l := by
  rw [parseUnsignedChars] at h
  split at h
  · rcases hpi : parseDigits _ with _ | n <;> rw [hpi] at h
    · exact absurd h (by simp)
    · obtain rfl := Option.some.inj h
      exact ⟨0, by simp⟩
  · rename_i ip fp heq
    split_ifs at h with hfp hip
    · rcases hpi : parseDigits ip with _ | n <;> rw [hpi] at h
      · exact absurd h (by simp)
      · obtain rfl := Option.some.inj h
        exact ⟨0, by simp⟩
    · rcases hpf : parseDigits fp with _ | b <;> rw [hpf] at h
      · exact absurd h (by simp)
      · obtain rfl := Option.some.inj h
        refine ⟨fp.length, ?_⟩
        simpa using den_div_natCast b (10 ^ fp.length)
    · rcases hpi : parseDigits ip with _ | a <;> rw [hpi] at h
      · exact absurd h (by simp)
      · rcases hpf : parseDigits fp with _ | b <;> rw [hpf] at h
        · exact absurd h (by simp)
        · obtain rfl := Option.some.inj h
          refine ⟨fp.length, ?_⟩
          have hrw : ((a : ℕ) : ℚ) + ((b : ℕ) : ℚ) / 10 ^ fp.length =
              ((a * 10 ^ fp.length + b : ℕ) : ℚ) /
                ((10 ^ fp.length : ℕ) : ℚ) := by
            have h10 : ((10 : ℚ)) ^ fp.length ≠ 0 := by positivity
            push_cast
            field_simp
          rw [hrw]
          have := den_div_natCast (a * 10 ^ fp.length + b) (10 ^ fp.length)
          simpa using this

theorem parseNum_den_dvd (cs : List Char) (q : ℚ)
    (h : parseNumChars cs = some q) : ∃ l, q.den ∣ 10 ^ l := by
  cases cs with
  | nil => exact absurd h (by simp [parseNumChars])
  | cons c t =>
    rw [parseNumChars] at h
    split_ifs at h
    · rcases hpu : parseUnsignedChars t with _ | r <;> rw [hpu] at h
      · exact absurd h (by simp)
      · have hq : -r = q := Option.some.inj h
        obtain ⟨l, hl⟩ := parseUnsigned_den_dvd t r hpu
        exact ⟨l, by rw [← hq, Rat.neg_den]; exact hl⟩
    · exact parseUnsigned_den_dvd t q h
    · exact parseUnsigned_den_dvd (c :: t) q h

/-- A number dividing some power of ten divides the power of ten with its
own exponent (its prime factors are only 2 and 5, each with multiplicity
below the number itself). -/
theorem dvd_ten_pow_self (d : ℕ) : ∀ l, d ∣ 10 ^ l → d ∣ 10 ^ d := by
  induction d using Nat.strong_induction_on with
  | _ d ih =>
    intro l hl
    rcases Nat.lt_or_ge d 2 with hd2 | hd2
    · interval_cases d
      · exact absurd (Nat.zero_dvd.mp hl) (by positivity)
      · exact one_dvd _
    · have hd1 : d ≠ 1 := by omega
      have hp : d.minFac.Prime := Nat.minFac_prime hd1
      have hpd : d.minFac ∣ d := Nat.minFac_dvd d
      have hp10 : d.minFac ∣ 10 := hp.dvd_of_dvd_pow (hpd.trans hl)
      have hde : d = d.minFac * (d / d.minFac) :=
        (Nat.mul_div_cancel' hpd).symm
      have helt : d / d.minFac < d :=
        Nat.div_lt_self (by omega) hp.one_lt
      have hedvd : d / d.minFac ∣ 10 ^ l :=
        dvd_trans (Nat.div_dvd_of_dvd hpd) hl
      have hee : d / d.minFac ∣ 10 ^ (d / d.minFac) := ih _ helt l hedvd
      have hstep : d ∣ 10 ^ (d / d.minFac + 1) := by
        have hmul : d.minFac * (d / d.minFac) ∣ 10 * 10 ^ (d / d.minFac) :=
          mul_dvd_mul hp10 hee
        rw [← hde] at hmul
        rw [pow_succ, Nat.mul_comm ((10 : ℕ) ^ (d / d.minFac)) 10]
        exact hmul
      exact hstep.trans (pow_dvd_pow 10 (by omega))

/-- C8: the numeric normaliser maps every raw value to a number or the
missing marker (a total function, never an exception); it maps the
comma-decimal text "12,50" to the number 12.50 and the missing marker to
itself; and it is idempotent on its own numeric outputs: normalising a
number it has produced returns that number unchanged. -/
theorem C8_normalizer_contract :
    normalize_value (.str "12,50") = some (25/2) ∧
    normalize_value .missing = none ∧
    (∀ v : RawValue, normalize_value v = none ∨
      ∃ q, normalize_value v = some q) ∧
    ∀ (v : RawValue) (q : ℚ), normalize_value v = some q →
      normalize_value (.num q) = some q := by
  refine ⟨?_, by decide, ?_, ?_⟩
  · have h1 : normalize_value (.str "12,50") =
        some ((12 : ℚ) + 50 / 10 ^ 2) := rfl
    rw [h1]
    norm_num
  · intro v
    cases h : normalize_value v with
    | none => exact Or.inl rfl
    | some q => exact Or.inr ⟨q, rfl⟩
  · intro v q h
    rw [normalize_value] at h
    obtain ⟨l, hl⟩ := parseNum_den_dvd _ q h
    have hden : q.den ∣ 10 ^ q.den := dvd_ten_pow_self q.den l hl
    have hnc : replaceComma (renderQChars q) = renderQChars q :=
      replaceComma_of_no_comma _ (renderQ_no_comma q)
    show parseNumChars (replaceComma (renderQChars q)) = some q
    rw [hnc]
    exact parse_renderQ q hden

/-- C8 witness: normalising "12,50" yields 12.50, and re-normalising that
number is a no-op. -/
theorem C8_normalizer_contract_witness :
    normalize_value (.str "12,50") = some (25/2) ∧
    normalize_value (.num (25/2)) = some (25/2) := by
  have hin : normalize_value (.str "12,50") = some (25/2) := by
    have h1 : normalize_value (.str "12,50") =
        some ((12 : ℚ) + 50 / 10 ^ 2) := rfl
    rw [h1]
    norm_num
  exact ⟨hin, C8_normalizer_contract.2.2.2 (.str "12,50") (25/2) hin⟩

end RGM
